import Mathlib

/-!
Verification development for the PhyloNetwork2 repository
(src/ClusterContainment.c, src/SoftRFDist_print.c, src/SoftRFDist_parallel.c).

The C sources are shallowly embedded: pure helper functions become Lean
functions over lists and finite maps, the mutable per-reticulation tables
(inner_flag, super_deg, lf_below) become explicit function-valued state,
and graph-recursive C procedures that are partial on arbitrary graphs are
given an explicit fuel parameter.
-/

namespace PhyloNet

/-- Node classification tag ROOT from ClusterContainment.c. -/
def ROOT : Nat := 0

/-- Node classification tag TREE from ClusterContainment.c. -/
def TREE : Nat := 1

/-- Node classification tag RET from ClusterContainment.c. -/
def RET : Nat := 2

/-- Node classification tag LEAVE from ClusterContainment.c. -/
def LEAVE : Nat := 3

/-- Reticulation flag INNER from ClusterContainment.c. -/
def INNER : Nat := 4

/-- Reticulation flag CROSS from ClusterContainment.c. -/
def CROSS : Nat := 5

/-- Reticulation flag REVISED from ClusterContainment.c. -/
def REVISED : Nat := 6

/-- In-degree of node `i` in the edge list, as counted by the loops of
`Node_Type_Inform1` over the `start`/`end` arrays. -/
def indeg (edges : List (Nat × Nat)) (i : Nat) : Nat :=
  (edges.filter (fun e => e.2 = i)).length

/-- Out-degree of node `i` in the edge list, as counted by the loops of
`Node_Type_Inform1` over the `start`/`end` arrays. -/
def outdeg (edges : List (Nat × Nat)) (i : Nat) : Nat :=
  (edges.filter (fun e => e.1 = i)).length

/-- Number of nodes with in-degree 0 and out-degree greater than 1: the
`check` counter of `Node_Type_Inform1` (src/ClusterContainment.c:1057). -/
def rootCount (no_nodes : Nat) (edges : List (Nat × Nat)) : Nat :=
  ((List.range no_nodes).filter
    (fun i => indeg edges i = 0 ∧ outdeg edges i > 1)).length

/-- Number of nodes with both in-degree and out-degree greater than 1: the
`check_node` counter of `Node_Type_Inform1` (src/ClusterContainment.c:1070). -/
def mixedCount (no_nodes : Nat) (edges : List (Nat × Nat)) : Nat :=
  ((List.range no_nodes).filter
    (fun i => indeg edges i > 1 ∧ outdeg edges i > 1)).length

/-- Return value of `Node_Type_Inform1` (src/ClusterContainment.c:1040-1078):
`-2` when `check > 1 || check_node > 0`, otherwise `0`. -/
def Node_Type_Inform1 (no_nodes : Nat) (edges : List (Nat × Nat)) : Int :=
  if rootCount no_nodes edges > 1 ∨ mixedCount no_nodes edges > 0 then -2 else 0

/-- Node classification as assigned by `Node_Type_Inform1`
(src/ClusterContainment.c:1057-1069).  The array is zero-initialized by
`calloc`, so a node matching none of the four conditions keeps tag 0. -/
def nodeTypeOf (edges : List (Nat × Nat)) (i : Nat) : Nat :=
  if indeg edges i = 0 ∧ outdeg edges i > 1 then ROOT
  else if indeg edges i = 1 ∧ outdeg edges i = 0 then LEAVE
  else if indeg edges i = 1 ∧ outdeg edges i ≥ 1 then TREE
  else if indeg edges i > 1 ∧ outdeg edges i = 1 then RET
  else 0

/-- The `struct arb_tnode` trees of the source: a label plus an ordered list
of (non-null) children.  The C arrays of child pointers are compacted so that
traversals only visit non-null children. -/
inductive ArbTree where
  | node (label : Nat) (children : List ArbTree)

/-- Label of the root of an `arb_tnode` tree. -/
def ArbTree.label : ArbTree → Nat
  | .node l _ => l

/-- Children of the root of an `arb_tnode` tree. -/
def ArbTree.children : ArbTree → List ArbTree
  | .node _ c => c

mutual

/-- All labels occurring in an `arb_tnode` tree, root first. -/
def treeVertices : ArbTree → List Nat
  | .node lab cs => lab :: forestVertices cs

/-- All labels occurring in a forest of `arb_tnode` trees. -/
def forestVertices : List ArbTree → List Nat
  | [] => []
  | c :: cs => treeVertices c ++ forestVertices cs

end

mutual

/-- `Is_Stable` (src/ClusterContainment.c:1081-1107).  Returns 1 when the
component tree contains a LEAVE vertex or a RET vertex that is INNER with a
visible leaf; the C function falls off the end for a label outside the four
tags, which the model maps to 0. -/
def Is_Stable (node_type inner_flag : Nat → Nat) (lf_below : Nat → Int) :
    ArbTree → Int
  | .node lab cs =>
    if node_type lab = LEAVE then 1
    else if node_type lab = RET then
      if inner_flag lab = INNER ∧ 0 ≤ lf_below lab then 1 else 0
    else if node_type lab = TREE ∨ node_type lab = ROOT then
      if anyChildStable node_type inner_flag lf_below cs then 1 else 0
    else 0

/-- The child loop of `Is_Stable`: 1 is returned as soon as some child
subtree reports 1. -/
def anyChildStable (node_type inner_flag : Nat → Nat) (lf_below : Nat → Int) :
    List ArbTree → Bool
  | [] => false
  | c :: cs =>
    if Is_Stable node_type inner_flag lf_below c = 1 then true
    else anyChildStable node_type inner_flag lf_below cs

end

/-- Strong induction on `arb_tnode` trees. -/
def ArbTree.strongInduction {P : ArbTree → Prop}
    (h : ∀ lab cs, (∀ c ∈ cs, P c) → P (.node lab cs)) : ∀ t, P t
  | .node lab cs => h lab cs (fun c hc => ArbTree.strongInduction h c)
termination_by t => sizeOf t
decreasing_by
  have := List.sizeOf_lt_of_mem hc
  simp only [ArbTree.node.sizeOf_spec]
  omega

/-- The specified stability property of a component: the subtree contains a
LEAVE vertex, or a RET vertex whose current flag is INNER with a visible
leaf (`lf_below >= 0`). -/
def StableWitness (node_type inner_flag : Nat → Nat) (lf_below : Nat → Int)
    (t : ArbTree) : Prop :=
  ∃ v ∈ treeVertices t,
    node_type v = LEAVE ∨
      (node_type v = RET ∧ inner_flag v = INNER ∧ 0 ≤ lf_below v)

/-- Every label of the tree carries one of the four tags assigned by
`Node_Type_Inform1`; this is an invariant of component trees. -/
def WellTyped (node_type : Nat → Nat) (t : ArbTree) : Prop :=
  ∀ v ∈ treeVertices t,
    node_type v = ROOT ∨ node_type v = TREE ∨ node_type v = RET ∨
      node_type v = LEAVE

mutual

/-- All subtrees of an `arb_tnode` tree, the tree itself included. -/
def subtreesOf : ArbTree → List ArbTree
  | .node lab cs => .node lab cs :: forestSubtrees cs

/-- All subtrees of a forest of `arb_tnode` trees. -/
def forestSubtrees : List ArbTree → List ArbTree
  | [] => []
  | c :: cs => subtreesOf c ++ forestSubtrees cs

end

/-- RET and LEAVE vertices only appear on the frontier of a component tree
(they have no children there); an invariant of the trees built by
`Build_Comp_Revised`, which stops at LEAVE and RET labels. -/
def FrontierOk (node_type : Nat → Nat) (t : ArbTree) : Prop :=
  ∀ s ∈ subtreesOf t,
    (node_type s.label = RET ∨ node_type s.label = LEAVE) → s.children = []

/-- `Is_In` (src/ClusterContainment.c:134-141): 1 when the element occurs in
the array, otherwise -1. -/
def Is_In (elt : Int) (l : List Int) : Int :=
  if elt ∈ l then 1 else -1

/-- The four output arrays of `Find_UnStable`: the CROSS reticulations of the
component whose visible leaf is in B (`unstb_rets_in` with `lf_in_comp`) and
those whose visible leaf is not in B (`unstb_rets_out` with `lf_out_comp`). -/
structure UnstableAcc where
  rets_in : List Nat
  lf_in : List Int
  rets_out : List Nat
  lf_out : List Int
deriving DecidableEq

/-- The empty accumulator for `Find_UnStable`. -/
def UnstableAcc.nil : UnstableAcc := ⟨[], [], [], []⟩

/-- Concatenation of the four accumulator arrays, in traversal order. -/
def UnstableAcc.append (a b : UnstableAcc) : UnstableAcc :=
  ⟨a.rets_in ++ b.rets_in, a.lf_in ++ b.lf_in,
   a.rets_out ++ b.rets_out, a.lf_out ++ b.lf_out⟩

mutual

/-- `Find_UnStable` (src/ClusterContainment.c:1110-1148): collects, in
traversal order, the CROSS reticulation leaves of the component tree whose
visible leaf (`lf_below`) is not -2, split according to membership of that
leaf in the input leaves. -/
def Find_UnStable (node_type inner_flag : Nat → Nat) (lf_below : Nat → Int)
    (input_leaves : List Int) : ArbTree → UnstableAcc
  | .node lab cs =>
    if node_type lab = LEAVE then .nil
    else if node_type lab = RET then
      if inner_flag lab = CROSS then
        if lf_below lab = -2 then .nil
        else if Is_In (lf_below lab) input_leaves = 1 then
          ⟨[lab], [lf_below lab], [], []⟩
        else
          ⟨[], [], [lab], [lf_below lab]⟩
      else .nil
    else if node_type lab = TREE ∨ node_type lab = ROOT then
      forestUnstable node_type inner_flag lf_below input_leaves cs
    else .nil

/-- The child loop of `Find_UnStable`. -/
def forestUnstable (node_type inner_flag : Nat → Nat) (lf_below : Nat → Int)
    (input_leaves : List Int) : List ArbTree → UnstableAcc
  | [] => .nil
  | c :: cs =>
    (Find_UnStable node_type inner_flag lf_below input_leaves c).append
      (forestUnstable node_type inner_flag lf_below input_leaves cs)

end

/-- The branch taken by `Cluster_Containment` (src/ClusterContainment.c:1576-
2028) for the component at the head of the list. -/
inductive Route where
  /-- `p->tree_com == NULL`: drop the reticulation and recurse (line 1597). -/
  | emptySkip
  /-- `Is_Stable(...) == 1`: the stable-component resolver branch
  (line 1603). -/
  | resolver
  /-- the unstable branch with `no_in_lfb == no1`: report success at
  `p->tree_com->label` and return 50 (lines 1827-1833). -/
  | shortCircuitSuccess (v : Nat)
  /-- the unstable branch with `no_rets_in > 0 || no_rets_out > 0`: clone the
  state into two networks and recurse into both (lines 1835-2019). -/
  | splitClones
  /-- the unstable branch with no actionable cross reticulation (lines
  2021-2027). -/
  | noActionable
deriving DecidableEq

/-- The routing decision of the CCP driver `Cluster_Containment` for the
head component: tree empty, stable (resolver) or unstable (splitter), and
within the splitter the short-circuit test `no_in_lfb == no1` before the
split test, exactly in source order. -/
def driverRoute (node_type inner_flag : Nat → Nat) (lf_below : Nat → Int)
    (input_leaves : List Int) : Option ArbTree → Route
  | none => .emptySkip
  | some t =>
    if Is_Stable node_type inner_flag lf_below t = 1 then .resolver
    else
      let acc := Find_UnStable node_type inner_flag lf_below input_leaves t
      if acc.lf_in.length = input_leaves.length then .shortCircuitSuccess t.label
      else if acc.rets_in.length > 0 ∨ acc.rets_out.length > 0 then .splitClones
      else .noActionable

/-- Pointwise array update, modelling `f[i] = v` on the C int arrays. -/
def updFn (f : Nat → Nat) (i v : Nat) : Nat → Nat :=
  fun j => if j = i then v else f j

namespace CCPsrc

/-- The loop over `r_nodes` run immediately after `Replace_Ret_Revised` in
the stable branch of `Cluster_Containment`
(src/ClusterContainment.c:1621-1631): every reticulation whose `inner_flag`
is REVISED is normalized, mutating `super_deg` and `inner_flag` in place. -/
def normalizeRevised : List Nat → (Nat → Nat) → (Nat → Nat) →
    (Nat → Nat) × (Nat → Nat)
  | [], super_deg, inner_flag => (super_deg, inner_flag)
  | r :: rest, super_deg, inner_flag =>
    if inner_flag r = REVISED then
      if super_deg r > 2 then
        normalizeRevised rest (updFn super_deg r (super_deg r - 1))
          (updFn inner_flag r CROSS)
      else
        normalizeRevised rest (updFn super_deg r 1) (updFn inner_flag r INNER)
    else normalizeRevised rest super_deg inner_flag

end CCPsrc

namespace SRFDpar

/-- The loop over `r_nodes` run immediately after `Replace_Ret_Revised` in
the stable branch of `Cluster_Containment` of the parallel SRFD variant
(src/SoftRFDist_parallel.c:1570-1580). -/
def normalizeRevised : List Nat → (Nat → Nat) → (Nat → Nat) →
    (Nat → Nat) × (Nat → Nat)
  | [], super_deg, inner_flag => (super_deg, inner_flag)
  | r :: rest, super_deg, inner_flag =>
    if inner_flag r = REVISED then
      if super_deg r > 2 then
        normalizeRevised rest (updFn super_deg r (super_deg r - 1))
          (updFn inner_flag r CROSS)
      else
        normalizeRevised rest (updFn super_deg r 1) (updFn inner_flag r INNER)
    else normalizeRevised rest super_deg inner_flag

end SRFDpar

/-- Whether the `main` of the CCP program answers trivially before the
component decomposition and the recursive search are ever built: the guard
`no1 == 1 || n_l == no1` of src/ClusterContainment.c:2176. -/
inductive MainPhase where
  /-- the branch printing `The input is a trivial soft cluster` and
  returning 0 (lines 2176-2191). -/
  | trivialAnswer
  /-- the fall-through that builds the components and calls
  `Cluster_Containment` (lines 2193-2271). -/
  | runSearch
deriving DecidableEq

/-- The phase selection of `main` after leaf validation
(src/ClusterContainment.c:2176). -/
def ccpMainPhase (no1 n_l : Nat) : MainPhase :=
  if no1 = 1 ∨ n_l = no1 then .trivialAnswer else .runSearch

/-- The humanly distinguishable outcomes of the CCP `main`
(src/ClusterContainment.c:2033-2311). -/
inductive CCPReport where
  /-- `argc != 3` (line 2065). -/
  | usage
  /-- `Node_Type_Inform1` returned a negative value (line 2113). -/
  | badTopology
  /-- a leaf of the input file is not a network leaf (line 2157). -/
  | unknownLeaf
  /-- the trivial-cluster guard fired (line 2176). -/
  | trivialCluster
  /-- the search returned 50 (success was already printed inside). -/
  | clusterFound
  /-- the search returned a value other than 50: `not a cluster!` printed
  (line 2274). -/
  | notACluster
deriving DecidableEq

/-- The report/exit-code behaviour of the CCP `main`, in source order: after
the three fatal checks (each `return 10`), the trivial guard and the search
both end in `return 0` (src/ClusterContainment.c:2065-2311).  `searchRes`
abstracts the value returned by the recursive `Cluster_Containment` call. -/
def ccpMain (argc no_nodes : Nat) (edges : List (Nat × Nat))
    (check_leaves no1 n_l : Nat) (searchRes : Int) : CCPReport × Nat :=
  if argc ≠ 3 then (.usage, 10)
  else if Node_Type_Inform1 no_nodes edges < 0 then (.badTopology, 10)
  else if check_leaves ≠ no1 then (.unknownLeaf, 10)
  else if no1 = 1 ∨ n_l = no1 then (.trivialCluster, 0)
  else if searchRes = 50 then (.clusterFound, 0)
  else (.notACluster, 0)

/-- What the `main` of an SRFD program does with its arguments. -/
inductive SrfdAction where
  /-- `argc != 3`: print the usage line. -/
  | usage
  /-- the two file-name arguments are byte-identical: print distance 0.0 and
  return without touching either file. -/
  | sameFilesReportZero
  /-- call `Find_Cluster_Distance`, which opens, parses and validates both
  files. -/
  | computeDistance
deriving DecidableEq

namespace SRFDprint

/-- Argument dispatch of `main` in src/SoftRFDist_print.c:2453-2471:
the `strcmp(argv[1], argv[2]) == 0` test runs before any file is opened. -/
def srfdMain (argc : Nat) (arg1 arg2 : String) : SrfdAction :=
  if argc ≠ 3 then .usage
  else if arg1 = arg2 then .sameFilesReportZero
  else .computeDistance

end SRFDprint

namespace SRFDpar

/-- Argument dispatch of `main` in src/SoftRFDist_parallel.c:2433-2453:
the `strcmp(argv[1], argv[2]) == 0` test runs before any file is opened. -/
def srfdMain (argc : Nat) (arg1 arg2 : String) : SrfdAction :=
  if argc ≠ 3 then .usage
  else if arg1 = arg2 then .sameFilesReportZero
  else .computeDistance

end SRFDpar

/-- The child loop of `Is_Tree_Component` (src/ClusterContainment.c:616-634):
skip LEAVE children, report 1 on a RET child, recurse through TREE children.
The C recursion is partial on cyclic graphs, so the model consumes one unit
of fuel per call; `none` means the fuel ran out. -/
def itcLoop (node_type : Nat → Nat) (child_array : Nat → List Nat) :
    Nat → List Nat → Option Bool
  | 0, _ => none
  | _ + 1, [] => some false
  | fuel + 1, c :: rest =>
    if node_type c = LEAVE then itcLoop node_type child_array fuel rest
    else if node_type c = RET then some true
    else
      match itcLoop node_type child_array fuel (child_array c) with
      | none => none
      | some true => some true
      | some false => itcLoop node_type child_array fuel rest

/-- `Is_Tree_Component` (src/ClusterContainment.c:616-634): whether some
reticulation occurs below `rnode` (reached through TREE nodes only). -/
def Is_Tree_Component (fuel : Nat) (node_type : Nat → Nat)
    (child_array : Nat → List Nat) (rnode : Nat) : Option Bool :=
  itcLoop node_type child_array fuel (child_array rnode)

/-- The child loop of `Count_Ret_Child` (src/ClusterContainment.c:637-659),
accumulating `(count, flag, size)`: `count` counts RET children reached
through TREE nodes, `flag` counts those RET children no longer present in
`orig_rnodes` (already emitted, marked -2 there), and `size` counts the
LEAVE and TREE nodes passed.  Fueled as `itcLoop`. -/
def crcLoop (node_type : Nat → Nat) (child_array : Nat → List Nat)
    (orig_rnodes : List Int) : Nat → List Nat → Option (Nat × Nat × Nat)
  | 0, _ => none
  | _ + 1, [] => some (0, 0, 0)
  | fuel + 1, c :: rest =>
    if node_type c = LEAVE then
      (crcLoop node_type child_array orig_rnodes fuel rest).map
        (fun x => (x.1, x.2.1, x.2.2 + 1))
    else if node_type c = RET then
      (crcLoop node_type child_array orig_rnodes fuel rest).map
        (fun x =>
          (x.1 + 1,
           x.2.1 + (if Is_In (Int.ofNat c) orig_rnodes = -1 then 1 else 0),
           x.2.2))
    else
      match crcLoop node_type child_array orig_rnodes fuel (child_array c) with
      | none => none
      | some y =>
        (crcLoop node_type child_array orig_rnodes fuel rest).map
          (fun x => (x.1 + y.1, x.2.1 + y.2.1, x.2.2 + 1 + y.2.2))

/-- `Count_Ret_Child` (src/ClusterContainment.c:637-659). -/
def Count_Ret_Child (fuel : Nat) (node_type : Nat → Nat)
    (child_array : Nat → List Nat) (orig_rnodes : List Int) (rnode : Nat) :
    Option (Nat × Nat × Nat) :=
  crcLoop node_type child_array orig_rnodes fuel (child_array rnode)

/-- `Is_Empty` (src/ClusterContainment.c:661-667): 1 when every entry of
`orig_rnodes` has been marked -2. -/
def Is_Empty (orig_rnodes : List Int) : Bool :=
  orig_rnodes.all (fun x => x = -2)

/-- The flag test of the first phase of `Sort_Rets_By_Level`
(src/ClusterContainment.c:683-691): `flag` stays 0 exactly when every child
of the reticulation is a LEAVE. -/
def onlyLeafChildren (node_type : Nat → Nat) (child_array : Nat → List Nat)
    (r : Nat) : Bool :=
  (child_array r).all (fun c => node_type c = LEAVE)

/-- Phase 1 of `Sort_Rets_By_Level` (src/ClusterContainment.c:678-697): move
the reticulations all of whose children are leaves to the front of
`r_nodes`, marking them -2 in `orig_rnodes`.  Returns the emitted prefix and
the updated `orig_rnodes`. -/
def srblPhase1 (node_type : Nat → Nat) (child_array : Nat → List Nat) :
    List Int → List Nat × List Int
  | [] => ([], [])
  | x :: rest =>
    if x = -2 then
      let (em, no) := srblPhase1 node_type child_array rest
      (em, -2 :: no)
    else if onlyLeafChildren node_type child_array x.toNat then
      let (em, no) := srblPhase1 node_type child_array rest
      (x.toNat :: em, -2 :: no)
    else
      let (em, no) := srblPhase1 node_type child_array rest
      (em, x :: no)

/-- Phase 2 of `Sort_Rets_By_Level` (src/ClusterContainment.c:699-708): move
the reticulations whose component contains no further reticulation
(`Is_Tree_Component` returns 0). -/
def srblPhase2 (fuel : Nat) (node_type : Nat → Nat)
    (child_array : Nat → List Nat) : List Int → Option (List Nat × List Int)
  | [] => some ([], [])
  | x :: rest =>
    if x = -2 then
      (srblPhase2 fuel node_type child_array rest).map
        (fun p => (p.1, -2 :: p.2))
    else
      match Is_Tree_Component fuel node_type child_array x.toNat with
      | none => none
      | some true =>
        (srblPhase2 fuel node_type child_array rest).map
          (fun p => (p.1, x :: p.2))
      | some false =>
        (srblPhase2 fuel node_type child_array rest).map
          (fun p => (x.toNat :: p.1, -2 :: p.2))

/-- One scan of the level loop of `Sort_Rets_By_Level`
(src/ClusterContainment.c:714-727): collect `(pnode, size, index)` for every
live reticulation whose reticulation children have all been emitted
(`flag > 0 && flag == count`). -/
def srblCollect (fuel : Nat) (node_type : Nat → Nat)
    (child_array : Nat → List Nat) (orig_full : List Int) :
    List Int → Nat → Option (List (Nat × Nat × Nat))
  | [], _ => some []
  | x :: rest, idx =>
    if x = -2 then srblCollect fuel node_type child_array orig_full rest (idx + 1)
    else
      match Count_Ret_Child fuel node_type child_array orig_full x.toNat with
      | none => none
      | some (count, flag, size) =>
        (srblCollect fuel node_type child_array orig_full rest (idx + 1)).map
          (fun tail =>
            if flag > 0 ∧ flag = count then (x.toNat, size, idx) :: tail
            else tail)

/-- Mark the entries of `orig_rnodes` at the given indices as -2
(src/ClusterContainment.c:731). -/
def srblMark (orig : List Int) (idxs : List Nat) : List Int :=
  orig.mapIdx (fun i x => if i ∈ idxs then -2 else x)

/-- The `qsort` by descending `value` of src/ClusterContainment.c:728 with
`tnode_comparator`; `qsort` leaves the order of equal keys unspecified, the
model picks a merge sort consistent with the comparator. -/
def srblSort (l : List (Nat × Nat × Nat)) : List (Nat × Nat × Nat) :=
  l.mergeSort (fun a b => b.2.1 ≤ a.2.1)

/-- The `while (Is_Empty(n_r, orig_rnodes) == 0)` loop of
`Sort_Rets_By_Level` (src/ClusterContainment.c:711-733).  The C loop has no
exit when a scan emits nothing, so the model spends one unit of `loopFuel`
per iteration; `none` means the C loop still runs after `loopFuel`
iterations (or an inner traversal ran out of `fuel`). -/
def srblLoop (fuel : Nat) (node_type : Nat → Nat)
    (child_array : Nat → List Nat) :
    Nat → List Int → List Nat → Option (List Nat)
  | 0, _, _ => none
  | loopFuel + 1, orig, acc =>
    if Is_Empty orig then some acc
    else
      match srblCollect fuel node_type child_array orig orig 0 with
      | none => none
      | some q =>
        srblLoop fuel node_type child_array loopFuel
          (srblMark orig ((q.map (fun e => e.2.2))))
          (acc ++ (srblSort q).map (fun e => e.1))

/-- `Sort_Rets_By_Level` (src/ClusterContainment.c:669-734) assembled from
its three phases.  `none` reports non-termination of the level loop within
`loopFuel` iterations. -/
def Sort_Rets_By_Level (fuel loopFuel : Nat) (node_type : Nat → Nat)
    (child_array : Nat → List Nat) (orig_rnodes : List Int) :
    Option (List Nat) :=
  let p1 := srblPhase1 node_type child_array orig_rnodes
  match srblPhase2 fuel node_type child_array p1.2 with
  | none => none
  | some p2 => srblLoop fuel node_type child_array loopFuel p2.2 (p1.1 ++ p2.1)

/-- Edge list of a graph on which the level loop cannot make progress: the
two reticulations 1 and 2 lie on a directed cycle `1 → 3 → 2 → 4 → 1`
threaded through the TREE nodes 3 and 4, while `Node_Type_Inform1` accepts
the graph (one root 0, no mixed-degree node).  Nodes 5 and 6 are leaves. -/
def cyclicEdges : List (Nat × Nat) :=
  [(0, 1), (0, 2), (1, 3), (3, 2), (3, 5), (2, 4), (4, 1), (4, 6)]

/-- Children lists of `cyclicEdges`, as built by `Child_Parent_Inform`. -/
def cyclicChildArray : Nat → List Nat :=
  fun i =>
    if i = 0 then [1, 2]
    else if i = 1 then [3]
    else if i = 2 then [4]
    else if i = 3 then [2, 5]
    else if i = 4 then [1, 6]
    else []

/-- Node classification of `cyclicEdges` computed by `Node_Type_Inform1`. -/
def cyclicNodeType : Nat → Nat :=
  fun i => nodeTypeOf cyclicEdges i

/-- `i4vec_indicator0` (src/SoftRFDist_print.c:2316-2323): the identity
vector `[0, 1, ..., k-1]`, the first k-subset. -/
def i4vec_indicator0 (k : Nat) : List Nat :=
  List.range k

/-- The `jsave` computation of `ksub_next`
(src/SoftRFDist_print.c:2331-2338): the first index `j` with
`a[j] + 1 < a[j+1]`, defaulting to `k - 1`. -/
def jsaveCalc : List Nat → Nat
  | x :: y :: rest => if x + 1 < y then 0 else jsaveCalc (y :: rest) + 1
  | _ => 0

/-- `ksub_next` (src/SoftRFDist_print.c:2326-2345): the next k-subset of an
n-set.  The prefix `a[0..jsave-1]` is reset to `0..jsave-1` and `a[jsave]`
is incremented; nothing happens when `a[0] >= n - k + 1`. -/
def ksub_next (n k : Nat) (a : List Nat) : List Nat :=
  if a.headD 0 < n - k + 1 then
    List.range (jsaveCalc a) ++ (a.getD (jsaveCalc a) 0 + 1) :: a.drop (jsaveCalc a + 1)
  else a

/-- Two's-complement wrap-around of a signed 32-bit C `int`: the unique
representative of `x` modulo `2^32` in `[-2^31, 2^31)`. -/
def int32 (x : Int) : Int :=
  (x + 2 ^ 31) % 2 ^ 32 - 2 ^ 31

/-- `nChoosek` (src/SoftRFDist_print.c:108-124): the binomial coefficient
via the multiplicative formula, computed in C `int` arithmetic.  The
accumulator is a 32-bit signed `int`, so the intermediate product
`result * (n - i + 1)` wraps around (`int32`); the division `result /= i`
is C signed division, truncating toward zero (`Int.tdiv`).  The inputs `n`,
`k` and the factor `n - i + 1` are node counts bounded by MAXSIZE in the
program, and so never wrap themselves. -/
def nChoosek (n k : Nat) : Int :=
  if k > n then 0
  else
    let k1 := if k * 2 > n then n - k else k
    if k1 = 0 then 1
    else
      (List.range' 2 (k1 - 1)).foldl
        (fun result i => (int32 (result * ((n : Int) - (i : Int) + 1))).tdiv (i : Int))
        (n : Int)

/-- The i-th subset visited by `Subset_CCP` (src/SoftRFDist_print.c:2347-
2371) for size k: the 0-th is `i4vec_indicator0 k` and each following one is
obtained by `ksub_next`. -/
def seqSub (n k : Nat) : Nat → List Nat
  | 0 => i4vec_indicator0 k
  | i + 1 => ksub_next n k (seqSub n k i)

/-- The full list of k-subsets visited by one `Subset_CCP` call
(src/SoftRFDist_print.c:2347-2371 with the bound `no = nChoosek(n_l, k)`
from line 2427): the initial subset is always visited, then the loop
`for (j = 1; j < no; j++)` adds `no - 1` more, so `max(no, 1)` in total —
just the initial one when the wrapped `no` is zero or negative. -/
def subsetsOfSize (n k : Nat) : List (List Nat) :=
  (List.range (max (nChoosek n k).toNat 1)).map (seqSub n k)

/-- All subsets visited by the `for (k = 1; k < net1.n_l; k++)` loop of
`Find_Cluster_Distance` (src/SoftRFDist_print.c:2426-2430), in visit
order. -/
def srfdSubsets (n : Nat) : List (List Nat) :=
  ((List.range' 1 (n - 1)).map (subsetsOfSize n)).flatten

/-- The data of one preprocessed network that `Find_Cluster_Distance`
consults: the number of leaves, the canonically sorted leaf labels
(`node_strings[0..n_l-1]` after `Move_Leaves_Front` and `Sort_Leaves`), and
the per-subset verdict of `Is_Cluster` (bit k of `res_i` set). -/
structure NetworkAbs where
  n_l : Nat
  leafLabels : List String
  isCluster : List Nat → Bool

/-- The number of subsets on which the two verdicts differ: the popcount of
`res1 XOR res2` in src/SoftRFDist_print.c:2432-2436. -/
def diffCount (subsets : List (List Nat)) (c1 c2 : List Nat → Bool) : Nat :=
  (subsets.filter (fun s => ¬ (c1 s = c2 s))).length

/-- `Find_Cluster_Distance` (src/SoftRFDist_print.c:2373-2451): `none` for
the two `exit(10)` leaf-set checks, otherwise the printed distance
`popcount(res1 XOR res2) / 2`. -/
def Find_Cluster_Distance (net1 net2 : NetworkAbs) : Option ℚ :=
  if net1.n_l ≠ net2.n_l then none
  else if net1.leafLabels ≠ net2.leafLabels then none
  else some ((diffCount (srfdSubsets net1.n_l) net1.isCluster net2.isCluster : ℚ) / 2)

/-- The value of a leaf subset when its membership bitmap is read as an
integer (bit `i` set for leaf `i`): the order in which the spec ranks the
enumerated subsets. -/
def bm (s : Finset ℕ) : ℕ :=
  ∑ i ∈ s, 2 ^ i

/-- The bitmap value of a subset given as a list of leaf indices. -/
def bmL (a : List ℕ) : ℕ :=
  (a.map (2 ^ ·)).sum

/-- A well-formed k-subset of an n-set in the `ksub_next` representation:
a strictly increasing list of k indices below n. -/
def ValidComb (n k : Nat) (a : List Nat) : Prop :=
  a.Sorted (· < ·) ∧ a.length = k ∧ ∀ x ∈ a, x < n

/-- All k-element subsets of `{0, ..., n-1}`. -/
def combSet (n k : Nat) : Finset (Finset ℕ) :=
  Finset.powersetCard k (Finset.range n)

/-- The number of k-subsets whose bitmap value lies below `v`. -/
def rankOf (n k : Nat) (v : ℕ) : ℕ :=
  ((combSet n k).filter (fun t => bm t < v)).card

/-! ## Theorems -/

/-- Membership in the vertex list of a forest. -/
theorem mem_forestVertices (v : Nat) (cs : List ArbTree) :
    v ∈ forestVertices cs ↔ ∃ c ∈ cs, v ∈ treeVertices c := by
  induction cs with
  | nil => simp [forestVertices]
  | cons c cs ih => simp [forestVertices, ih]

/-- Membership in the subtree list of a forest. -/
theorem mem_forestSubtrees (s : ArbTree) (cs : List ArbTree) :
    s ∈ forestSubtrees cs ↔ ∃ c ∈ cs, s ∈ subtreesOf c := by
  induction cs with
  | nil => simp [forestSubtrees]
  | cons c cs ih => simp [forestSubtrees, ih]

/-- `WellTyped` is inherited by the children of a component tree. -/
theorem wellTyped_child {node_type : Nat → Nat} {lab : Nat}
    {cs : List ArbTree} {c : ArbTree} (hc : c ∈ cs)
    (hw : WellTyped node_type (.node lab cs)) : WellTyped node_type c := by
  intro v hv
  exact hw v (by
    simp only [treeVertices, List.mem_cons]
    exact Or.inr ((mem_forestVertices v cs).mpr ⟨c, hc, hv⟩))

/-- `FrontierOk` is inherited by the children of a component tree. -/
theorem frontierOk_child {node_type : Nat → Nat} {lab : Nat}
    {cs : List ArbTree} {c : ArbTree} (hc : c ∈ cs)
    (hf : FrontierOk node_type (.node lab cs)) : FrontierOk node_type c := by
  intro s hs
  exact hf s (by
    simp only [subtreesOf, List.mem_cons]
    exact Or.inr ((mem_forestSubtrees s cs).mpr ⟨c, hc, hs⟩))

/-- The child loop of `Is_Stable` returns true exactly when some child
subtree reports 1. -/
theorem anyChildStable_iff (node_type inner_flag : Nat → Nat)
    (lf_below : Nat → Int) (cs : List ArbTree) :
    anyChildStable node_type inner_flag lf_below cs = true ↔
      ∃ c ∈ cs, Is_Stable node_type inner_flag lf_below c = 1 := by
  induction cs with
  | nil => simp [anyChildStable]
  | cons c cs ih =>
    unfold anyChildStable
    by_cases h : Is_Stable node_type inner_flag lf_below c = 1
    · simp [h]
    · simp [h, ih]

/-- `Is_Stable` computes the specified stability property on well-formed
component trees. -/
theorem isStable_iff (node_type inner_flag : Nat → Nat) (lf_below : Nat → Int) :
    ∀ t, WellTyped node_type t → FrontierOk node_type t →
      (Is_Stable node_type inner_flag lf_below t = 1 ↔
        StableWitness node_type inner_flag lf_below t) := by
  refine ArbTree.strongInduction ?_
  intro lab cs ih hw hf
  have hlab := hw lab (by simp [treeVertices])
  have hroot : (ArbTree.node lab cs) ∈ subtreesOf (.node lab cs) := by
    simp [subtreesOf]
  by_cases hL : node_type lab = LEAVE
  · constructor
    · intro _
      exact ⟨lab, by simp [treeVertices], Or.inl hL⟩
    · intro _
      unfold Is_Stable
      simp [hL]
  · by_cases hR : node_type lab = RET
    · have hcs : cs = [] := hf _ hroot (Or.inl (by simpa [ArbTree.label] using hR))
      subst hcs
      unfold Is_Stable
      simp only [hL, if_false, hR, if_true]
      by_cases hcond : inner_flag lab = INNER ∧ 0 ≤ lf_below lab
      · simp only [hcond, if_true]
        constructor
        · intro _
          exact ⟨lab, by simp [treeVertices], Or.inr ⟨hR, hcond.1, hcond.2⟩⟩
        · intro _; rfl
      · simp only [hcond, if_false]
        constructor
        · intro h; cases h
        · rintro ⟨v, hv, hvprop⟩
          simp only [treeVertices, forestVertices, List.mem_singleton] at hv
          subst hv
          rcases hvprop with h | ⟨_, h2, h3⟩
          · exact absurd h hL
          · exact absurd ⟨h2, h3⟩ hcond
    · have hTR : node_type lab = TREE ∨ node_type lab = ROOT := by
        rcases hlab with h | h | h | h
        · exact Or.inr h
        · exact Or.inl h
        · exact absurd h hR
        · exact absurd h hL
      unfold Is_Stable
      simp only [hL, if_false, hR, hTR, if_true]
      have hany := anyChildStable_iff node_type inner_flag lf_below cs
      constructor
      · intro hone
        have : anyChildStable node_type inner_flag lf_below cs = true := by
          by_contra hfalse
          simp only [Bool.not_eq_true] at hfalse
          rw [if_neg] at hone
          · exact absurd hone (by decide)
          · simp [hfalse]
        obtain ⟨c, hc, hcstable⟩ := hany.mp this
        obtain ⟨v, hv, hvprop⟩ :=
          ((ih c hc (wellTyped_child hc hw) (frontierOk_child hc hf)).mp hcstable)
        exact ⟨v, by
          simp only [treeVertices, List.mem_cons]
          exact Or.inr ((mem_forestVertices v cs).mpr ⟨c, hc, hv⟩), hvprop⟩
      · rintro ⟨v, hv, hvprop⟩
        simp only [treeVertices, List.mem_cons] at hv
        rcases hv with hv | hv
        · subst hv
          rcases hvprop with h | ⟨h, _⟩
          · exact absurd h hL
          · exact absurd h hR
        · obtain ⟨c, hc, hvc⟩ := (mem_forestVertices v cs).mp hv
          have hcstable := (ih c hc (wellTyped_child hc hw) (frontierOk_child hc hf)).mpr ⟨v, hvc, hvprop⟩
          rw [if_pos]
          exact hany.mpr ⟨c, hc, hcstable⟩

/-- C1.  A tree component is classified stable (`Is_Stable` returns 1)
exactly when its tree contains a LEAVE vertex or a RET vertex whose current
`inner_flag` is INNER with `lf_below >= 0`; the CCP driver routes stable
components to the resolver branch and every other non-empty component to the
unstable (splitter) branch, and skips empty components. -/
theorem stableRouting (node_type inner_flag : Nat → Nat) (lf_below : Nat → Int)
    (input_leaves : List Int) (t : ArbTree)
    (hw : WellTyped node_type t) (hf : FrontierOk node_type t) :
    (Is_Stable node_type inner_flag lf_below t = 1 ↔
      StableWitness node_type inner_flag lf_below t) ∧
      (driverRoute node_type inner_flag lf_below input_leaves (some t) =
          Route.resolver ↔
        StableWitness node_type inner_flag lf_below t) ∧
      (¬ StableWitness node_type inner_flag lf_below t →
        driverRoute node_type inner_flag lf_below input_leaves (some t) =
            Route.shortCircuitSuccess t.label ∨
          driverRoute node_type inner_flag lf_below input_leaves (some t) =
            Route.splitClones ∨
          driverRoute node_type inner_flag lf_below input_leaves (some t) =
            Route.noActionable) ∧
      driverRoute node_type inner_flag lf_below input_leaves none =
        Route.emptySkip := by
  have h1 := isStable_iff node_type inner_flag lf_below t hw hf
  refine ⟨h1, ?_, ?_, rfl⟩
  · by_cases hs : Is_Stable node_type inner_flag lf_below t = 1
    · simp only [driverRoute]
      rw [if_pos hs]
      exact iff_of_true rfl (h1.mp hs)
    · simp only [driverRoute]
      rw [if_neg hs]
      constructor
      · intro h
        split at h
        · cases h
        · split at h <;> cases h
      · intro hsw
        exact absurd (h1.mpr hsw) hs
  · intro hnsw
    have hns : Is_Stable node_type inner_flag lf_below t ≠ 1 :=
      fun h => hnsw (h1.mp h)
    simp only [driverRoute]
    rw [if_neg hns]
    split
    · exact Or.inl rfl
    split
    · exact Or.inr (Or.inl rfl)
    · exact Or.inr (Or.inr rfl)

/-- Witness for `stableRouting` at the single-leaf component tree. -/
theorem stableRouting_witness :
    (Is_Stable (fun _ => LEAVE) (fun _ => CROSS) (fun _ => -2) (.node 20 []) = 1 ↔
      StableWitness (fun _ => LEAVE) (fun _ => CROSS) (fun _ => -2) (.node 20 [])) ∧
      (driverRoute (fun _ => LEAVE) (fun _ => CROSS) (fun _ => -2) []
          (some (.node 20 [])) = Route.resolver ↔
        StableWitness (fun _ => LEAVE) (fun _ => CROSS) (fun _ => -2) (.node 20 [])) ∧
      (¬ StableWitness (fun _ => LEAVE) (fun _ => CROSS) (fun _ => -2) (.node 20 []) →
        driverRoute (fun _ => LEAVE) (fun _ => CROSS) (fun _ => -2) []
            (some (.node 20 [])) = Route.shortCircuitSuccess (ArbTree.node 20 []).label ∨
          driverRoute (fun _ => LEAVE) (fun _ => CROSS) (fun _ => -2) []
            (some (.node 20 [])) = Route.splitClones ∨
          driverRoute (fun _ => LEAVE) (fun _ => CROSS) (fun _ => -2) []
            (some (.node 20 [])) = Route.noActionable) ∧
      driverRoute (fun _ => LEAVE) (fun _ => CROSS) (fun _ => -2) [] none =
        Route.emptySkip :=
  stableRouting (fun _ => LEAVE) (fun _ => CROSS) (fun _ => -2) []
    (.node 20 [])
    (by intro v hv; right; right; right; rfl)
    (by intro s hs _
        simp only [subtreesOf, forestSubtrees, List.mem_singleton] at hs
        subst hs
        rfl)

/-- C3.  In the unstable branch, when the number of leaves collected from
the component's CROSS reticulations whose `lf_below` lies in B equals `|B|`
(`no_in_lfb == no1`, src/ClusterContainment.c:1827), the driver reports
success at the component's root label directly, without cloning the state
into two networks. -/
theorem splitterShortCircuit (node_type inner_flag : Nat → Nat)
    (lf_below : Nat → Int) (input_leaves : List Int) (t : ArbTree)
    (hns : Is_Stable node_type inner_flag lf_below t ≠ 1)
    (hlen : (Find_UnStable node_type inner_flag lf_below input_leaves t).lf_in.length =
      input_leaves.length) :
    driverRoute node_type inner_flag lf_below input_leaves (some t) =
      Route.shortCircuitSuccess t.label := by
  simp only [driverRoute]
  rw [if_neg hns, if_pos hlen]

/-- Witness for `splitterShortCircuit`: a component tree with one CROSS
reticulation whose visible leaf 7 is the only element of B. -/
theorem splitterShortCircuit_witness :
    driverRoute (fun v => if v = 11 then RET else TREE) (fun _ => CROSS)
        (fun _ => 7) [7] (some (.node 10 [.node 11 []])) =
      Route.shortCircuitSuccess (ArbTree.node 10 [.node 11 []]).label := by
  refine splitterShortCircuit (fun v => if v = 11 then RET else TREE)
    (fun _ => CROSS) (fun _ => 7) [7] (.node 10 [.node 11 []]) ?_ ?_
  · unfold Is_Stable anyChildStable Is_Stable anyChildStable
    simp [LEAVE, RET, TREE, ROOT, INNER, CROSS]
  · unfold Find_UnStable forestUnstable Find_UnStable forestUnstable
    simp [LEAVE, RET, TREE, ROOT, INNER, CROSS, Is_In, UnstableAcc.append,
      UnstableAcc.nil]

/-- Indices not in the processed list are untouched by the normalization
loop. -/
theorem normalizeRevised_untouched (rs : List Nat) (sd fl : Nat → Nat)
    (r : Nat) (hr : r ∉ rs) :
    (CCPsrc.normalizeRevised rs sd fl).1 r = sd r ∧
      (CCPsrc.normalizeRevised rs sd fl).2 r = fl r := by
  induction rs generalizing sd fl with
  | nil => exact ⟨rfl, rfl⟩
  | cons x rest ih =>
    have hxr : r ≠ x := fun h => hr (h ▸ List.mem_cons_self x rest)
    have hrrest : r ∉ rest := fun h => hr (List.mem_cons_of_mem x h)
    unfold CCPsrc.normalizeRevised
    by_cases h1 : fl x = REVISED
    · by_cases h2 : sd x > 2
      · simp only [h1, h2, if_pos, if_true]
        have := ih (updFn sd x (sd x - 1)) (updFn fl x CROSS) hrrest
        simpa [updFn, hxr] using this
      · simp only [h1, h2, if_true, if_false]
        have := ih (updFn sd x 1) (updFn fl x INNER) hrrest
        simpa [updFn, hxr] using this
    · simp only [h1, if_false]
      exact ih sd fl hrrest

/-- The two copies of the normalization loop behave identically. -/
theorem normalizeRevised_variants_eq :
    CCPsrc.normalizeRevised = SRFDpar.normalizeRevised := by
  funext rs
  induction rs with
  | nil => rfl
  | cons x rest ih =>
    funext sd fl
    unfold CCPsrc.normalizeRevised SRFDpar.normalizeRevised
    by_cases h1 : fl x = REVISED
    · by_cases h2 : sd x > 2 <;> simp only [h1, h2, if_true, if_false, ih]
    · simp only [h1, if_false, ih]

/-- C2.  Immediately after leaf substitution, every reticulation whose
`inner_flag` is REVISED is normalized: with `super_deg > 2` the super-degree
is decremented and the flag becomes CROSS, otherwise the super-degree
becomes 1 and the flag becomes INNER; the single-network CCP variant
(src/ClusterContainment.c:1621-1631) and the parallel SRFD variant
(src/SoftRFDist_parallel.c:1570-1580) perform the same normalization. -/
theorem revisedNormalization (rs : List Nat) (sd fl : Nat → Nat) (r : Nat)
    (hnd : rs.Nodup) (hr : r ∈ rs) (hrev : fl r = REVISED) :
    CCPsrc.normalizeRevised = SRFDpar.normalizeRevised ∧
      (CCPsrc.normalizeRevised rs sd fl).1 r =
        (if 2 < sd r then sd r - 1 else 1) ∧
      (CCPsrc.normalizeRevised rs sd fl).2 r =
        (if 2 < sd r then CROSS else INNER) := by
  refine ⟨normalizeRevised_variants_eq, ?_⟩
  induction rs generalizing sd fl with
  | nil => cases hr
  | cons x rest ih =>
    rcases List.mem_cons.mp hr with hrx | hrrest
    · subst hrx
      have hnotrest : r ∉ rest := (List.nodup_cons.mp hnd).1
      unfold CCPsrc.normalizeRevised
      by_cases h2 : sd r > 2
      · simp only [hrev, h2, if_pos, if_true]
        have := normalizeRevised_untouched rest
          (updFn sd r (sd r - 1)) (updFn fl r CROSS) r hnotrest
        simpa [updFn, h2] using this
      · simp only [hrev, h2, if_true, if_false]
        have := normalizeRevised_untouched rest
          (updFn sd r 1) (updFn fl r INNER) r hnotrest
        simpa [updFn, h2] using this
    · have hxnotrest : x ∉ rest := (List.nodup_cons.mp hnd).1
      have hxr : r ≠ x := fun h => hxnotrest (h ▸ hrrest)
      have hndrest : rest.Nodup := (List.nodup_cons.mp hnd).2
      unfold CCPsrc.normalizeRevised
      by_cases h1 : fl x = REVISED
      · by_cases h2 : sd x > 2
        · simp only [h1, h2, if_pos, if_true]
          have := ih (updFn sd x (sd x - 1)) (updFn fl x CROSS) hndrest hrrest
            (by simpa [updFn, hxr] using hrev)
          simpa [updFn, hxr] using this
        · simp only [h1, h2, if_true, if_false]
          have := ih (updFn sd x 1) (updFn fl x INNER) hndrest hrrest
            (by simpa [updFn, hxr] using hrev)
          simpa [updFn, hxr] using this
      · simp only [h1, if_false]
        exact ih sd fl hndrest hrrest hrev

/-- Witness for `revisedNormalization` at a concrete state: one REVISED
reticulation 5 with super-degree 3 is normalized to super-degree 2 and flag
CROSS. -/
theorem revisedNormalization_witness :
    CCPsrc.normalizeRevised = SRFDpar.normalizeRevised ∧
      (CCPsrc.normalizeRevised [5] (fun _ => 3) (fun _ => REVISED)).1 5 =
        (if 2 < (fun _ => (3 : Nat)) 5 then (fun _ => (3 : Nat)) 5 - 1 else 1) ∧
      (CCPsrc.normalizeRevised [5] (fun _ => 3) (fun _ => REVISED)).2 5 =
        (if 2 < (fun _ => (3 : Nat)) 5 then CROSS else INNER) :=
  revisedNormalization [5] (fun _ => 3) (fun _ => REVISED) 5
    (by simp) (by simp) rfl

/-- C4.  `Sort_Rets_By_Level` does not terminate on every input graph and
raises no Cyclic error: on `cyclicEdges` — which `Node_Type_Inform1`
accepts, so `main` reaches the ordering — the third ordering rule can never
make progress while the reticulations 1 and 2 remain unresolved, and the
`while (Is_Empty(...) == 0)` loop of src/ClusterContainment.c:711 runs
forever: for every iteration budget `loopFuel` the fueled model still
reports non-termination (`none`). -/
theorem sortRetsByLevel_cyclic_diverges :
    Node_Type_Inform1 7 cyclicEdges = 0 ∧
      ∀ loopFuel : Nat,
        Sort_Rets_By_Level 10 loopFuel cyclicNodeType cyclicChildArray [1, 2] =
          none := by
  refine ⟨by decide, ?_⟩
  have hstep : ∀ n : Nat,
      srblLoop 10 cyclicNodeType cyclicChildArray (n + 1) [1, 2] [] =
        srblLoop 10 cyclicNodeType cyclicChildArray n [1, 2] [] := by
    intro n
    rw [srblLoop.eq_def]
    show (if Is_Empty [1, 2] = true then some [] else
        match srblCollect 10 cyclicNodeType cyclicChildArray [1, 2] [1, 2] 0 with
        | none => none
        | some q =>
          srblLoop 10 cyclicNodeType cyclicChildArray n
            (srblMark [1, 2] (List.map (fun e => e.2.2) q))
            ([] ++ List.map (fun e => e.1) (srblSort q))) = _
    rw [show srblCollect 10 cyclicNodeType cyclicChildArray [1, 2] [1, 2] 0 =
      some [] from rfl]
    rw [if_neg (by decide)]
    simp only [List.map_nil, List.nil_append]
    rw [show srblMark [1, 2] [] = ([1, 2] : List Int) from rfl]
    rw [show srblSort [] = [] from (by simp [srblSort])]
    simp
  have hloop : ∀ n : Nat,
      srblLoop 10 cyclicNodeType cyclicChildArray n [1, 2] [] = none := by
    intro n
    induction n with
    | zero => rfl
    | succ m ih => rw [hstep m]; exact ih
  intro lf
  exact hloop lf

/-- C5 counterexample.  The single-edge graph `0 → 1` has no ROOT node at
all (`rootCount = 0`, so it does not have exactly one ROOT), yet
`Node_Type_Inform1` accepts it (returns 0, not a negative value): the
claimed equivalence is false at this input. -/
theorem nodeTypeInform1_claim_false :
    ¬ (Node_Type_Inform1 2 [(0, 1)] < 0 ↔
        (¬ rootCount 2 [(0, 1)] = 1 ∨ 0 < mixedCount 2 [(0, 1)])) := by
  decide

/-- C5 amended.  `Node_Type_Inform1` rejects (returns a negative value, on
which `main` prints the diagnostic and exits with code 10) exactly when the
graph has two or more ROOT nodes (indegree 0, outdegree > 1) or some node
has both indegree > 1 and outdegree > 1; a graph with no ROOT at all is not
rejected. -/
theorem nodeTypeInform1_rejects_iff (no_nodes : Nat)
    (edges : List (Nat × Nat)) (check_leaves no1 n_l : Nat) (res : Int) :
    (Node_Type_Inform1 no_nodes edges < 0 ↔
      (2 ≤ rootCount no_nodes edges ∨ 0 < mixedCount no_nodes edges)) ∧
      (Node_Type_Inform1 no_nodes edges < 0 →
        ccpMain 3 no_nodes edges check_leaves no1 n_l res =
          (CCPReport.badTopology, 10)) := by
  constructor
  · unfold Node_Type_Inform1
    split <;> constructor <;> intro <;> omega
  · intro hneg
    unfold ccpMain
    simp [hneg]

/-- Witness for `nodeTypeInform1_rejects_iff` at a two-root graph. -/
theorem nodeTypeInform1_rejects_iff_witness :
    (Node_Type_Inform1 4 [(0, 2), (0, 3), (1, 2), (1, 3)] < 0 ↔
      (2 ≤ rootCount 4 [(0, 2), (0, 3), (1, 2), (1, 3)] ∨
        0 < mixedCount 4 [(0, 2), (0, 3), (1, 2), (1, 3)])) ∧
      (Node_Type_Inform1 4 [(0, 2), (0, 3), (1, 2), (1, 3)] < 0 →
        ccpMain 3 4 [(0, 2), (0, 3), (1, 2), (1, 3)] 1 1 2 0 =
          (CCPReport.badTopology, 10)) :=
  nodeTypeInform1_rejects_iff 4 [(0, 2), (0, 3), (1, 2), (1, 3)] 1 1 2 0

/-- C6 counterexample.  On a network with two leaves and the empty input
leaf set (`no1 = 0`), the guard `no1 == 1 || n_l == no1` of
src/ClusterContainment.c:2176 does not fire, so `main` proceeds to build the
component decomposition and run the search instead of returning the trivial
answer. -/
theorem ccpMainPhase_empty_not_trivial :
    ccpMainPhase 0 2 = MainPhase.runSearch ∧
      ¬ ccpMainPhase 0 2 = MainPhase.trivialAnswer := by
  constructor <;> decide

/-- C6 amended.  The CCP `main` reports the trivial answer (without ever
building the component list or calling the resolver or the splitter) exactly
when `|B| = 1` or `|B| = n`; the empty leaf set is not short-circuited and
falls through to the search. -/
theorem ccpMainPhase_trivial_iff (no1 n_l : Nat) :
    ccpMainPhase no1 n_l = MainPhase.trivialAnswer ↔ (no1 = 1 ∨ n_l = no1) := by
  unfold ccpMainPhase
  split
  · rename_i h
    simp [h]
  · rename_i h
    simp [h]

/-- C9.  When the search decides B is not a soft cluster, `main` prints the
negative report and still returns 0; exit code 10 arises exactly from the
three argument/topology/unknown-leaf checks that run before the search
(src/ClusterContainment.c:2065-2311). -/
theorem ccpMain_exit_codes (argc no_nodes : Nat) (edges : List (Nat × Nat))
    (check_leaves no1 n_l : Nat) (res : Int) :
    ((ccpMain argc no_nodes edges check_leaves no1 n_l res).1 =
        CCPReport.notACluster →
      (ccpMain argc no_nodes edges check_leaves no1 n_l res).2 = 0) ∧
      ((ccpMain argc no_nodes edges check_leaves no1 n_l res).2 = 10 ↔
        ((ccpMain argc no_nodes edges check_leaves no1 n_l res).1 =
            CCPReport.usage ∨
          (ccpMain argc no_nodes edges check_leaves no1 n_l res).1 =
            CCPReport.badTopology ∨
          (ccpMain argc no_nodes edges check_leaves no1 n_l res).1 =
            CCPReport.unknownLeaf)) := by
  unfold ccpMain
  split
  · simp
  split
  · simp
  split
  · simp
  split
  · simp
  split <;> simp

/-- Witness for `ccpMain_exit_codes`: a run that reaches the search and gets
the NotACluster result 10 from `Cluster_Containment` exits with code 0. -/
theorem ccpMain_exit_codes_witness :
    (ccpMain 3 3 [(0, 1), (0, 2)] 2 2 3 10).1 = CCPReport.notACluster ∧
      (ccpMain 3 3 [(0, 1), (0, 2)] 2 2 3 10).2 = 0 := by
  refine ⟨by decide, ?_⟩
  exact (ccpMain_exit_codes 3 3 [(0, 1), (0, 2)] 2 2 3 10).1 (by decide)

/-- C10.  When the two command-line arguments of the SRFD programs are
byte-identical strings, both variants print distance 0.0 and return before
`Find_Cluster_Distance` is called, hence without opening, parsing or
validating either file; no BadTopology or LeafSetMismatch error can be
raised on that path. -/
theorem srfdMain_same_files (argc : Nat) (arg1 arg2 : String)
    (hargc : argc = 3) (heq : arg1 = arg2) :
    SRFDprint.srfdMain argc arg1 arg2 = SrfdAction.sameFilesReportZero ∧
      SRFDpar.srfdMain argc arg1 arg2 = SrfdAction.sameFilesReportZero ∧
      SRFDprint.srfdMain = SRFDpar.srfdMain := by
  subst hargc
  refine ⟨?_, ?_, rfl⟩
  · unfold SRFDprint.srfdMain
    simp [heq]
  · unfold SRFDpar.srfdMain
    simp [heq]

/-- Witness for `srfdMain_same_files` with two identical file names (that
need not exist). -/
theorem srfdMain_same_files_witness :
    SRFDprint.srfdMain 3 "net.txt" "net.txt" = SrfdAction.sameFilesReportZero ∧
      SRFDpar.srfdMain 3 "net.txt" "net.txt" = SrfdAction.sameFilesReportZero ∧
      SRFDprint.srfdMain = SRFDpar.srfdMain :=
  srfdMain_same_files 3 "net.txt" "net.txt" rfl rfl

/-- Swapping the two per-subset verdicts does not change the number of
disagreeing subsets (XOR is commutative). -/
theorem diffCount_comm (subsets : List (List Nat)) (c1 c2 : List Nat → Bool) :
    diffCount subsets c1 c2 = diffCount subsets c2 c1 := by
  unfold diffCount
  congr 1
  apply List.filter_congr
  intro s _
  simp [eq_comm]

/-- C8.  For networks passing the leaf-set check (same number of leaves with
the same canonically sorted labels), the SRFD distance is symmetric:
`Find_Cluster_Distance` enumerates the same subset sequence in both orders
and counts `popcount(res1 XOR res2) / 2`, which is unchanged under swapping
the networks. -/
theorem srfdSymmetric (net1 net2 : NetworkAbs)
    (hn : net1.n_l = net2.n_l) (hl : net1.leafLabels = net2.leafLabels) :
    Find_Cluster_Distance net1 net2 = Find_Cluster_Distance net2 net1 := by
  unfold Find_Cluster_Distance
  rw [if_neg (not_not_intro hn), if_neg (not_not_intro hl),
    if_neg (not_not_intro hn.symm), if_neg (not_not_intro hl.symm)]
  rw [hn, diffCount_comm]

/-- The bitmap of a full initial segment. -/
theorem bm_range_add_one (m : ℕ) : bm (Finset.range m) + 1 = 2 ^ m := by
  induction m with
  | zero => simp [bm]
  | succ m ih =>
    rw [bm, Finset.range_succ, Finset.sum_insert Finset.not_mem_range_self]
    rw [bm] at ih
    rw [pow_succ]
    omega

/-- The bitmap of an interval of indices. -/
theorem bm_Ico_add (p q : ℕ) (h : p ≤ q) :
    bm (Finset.Ico p q) + 2 ^ p = 2 ^ q := by
  have h1 := bm_range_add_one p
  have h2 := bm_range_add_one q
  have h3 : bm (Finset.range p) + bm (Finset.Ico p q) = bm (Finset.range q) := by
    rw [bm, bm, bm, Finset.range_eq_Ico]
    exact Finset.sum_Ico_consecutive _ (Nat.zero_le p) h
  omega

/-- Bitmaps are monotone under inclusion. -/
theorem bm_mono {s t : Finset ℕ} (h : s ⊆ t) : bm s ≤ bm t :=
  Finset.sum_le_sum_of_subset h

/-- A subset of `{0..m-1}` has bitmap below `2 ^ m`. -/
theorem bm_lt_pow {s : Finset ℕ} {m : ℕ} (h : s ⊆ Finset.range m) :
    bm s < 2 ^ m := by
  have := bm_mono h
  have := bm_range_add_one m
  omega

/-- A set with all elements at least `m` has bitmap divisible by `2 ^ m`. -/
theorem dvd_bm {s : Finset ℕ} {m : ℕ} (h : ∀ x ∈ s, m ≤ x) :
    2 ^ m ∣ bm s :=
  Finset.dvd_sum fun x hx => pow_dvd_pow 2 (h x hx)

/-- Two sets with all elements at least `m` have bitmaps at distance at
least `2 ^ m` when unequal. -/
theorem bm_add_pow_le {s t : Finset ℕ} {m : ℕ} (hs : ∀ x ∈ s, m ≤ x)
    (ht : ∀ x ∈ t, m ≤ x) (h : bm s < bm t) : bm s + 2 ^ m ≤ bm t := by
  have hd : 2 ^ m ∣ bm t - bm s := Nat.dvd_sub' (dvd_bm ht) (dvd_bm hs)
  have := Nat.le_of_dvd (by omega) hd
  omega

/-- A j-element set of naturals has bitmap at least `2 ^ j - 1`. -/
theorem bm_card_le : ∀ (j : ℕ) (d : Finset ℕ), d.card = j → 2 ^ j ≤ bm d + 1 := by
  intro j
  induction j with
  | zero => intro d _; simp
  | succ m ih =>
    intro d hd
    have hne : d.Nonempty := Finset.card_pos.mp (by omega)
    have hMd : d.max' hne ∈ d := d.max'_mem hne
    have herase : (d.erase (d.max' hne)).card = m := by
      rw [Finset.card_erase_of_mem hMd]; omega
    have hsub : d ⊆ Finset.range (d.max' hne + 1) := fun x hx =>
      Finset.mem_range.mpr (Nat.lt_succ_of_le (d.le_max' x hx))
    have hcard : d.card ≤ d.max' hne + 1 := by
      have := Finset.card_le_card hsub
      simpa using this
    have hsum : bm (d.erase (d.max' hne)) + 2 ^ (d.max' hne) = bm d := by
      rw [bm, bm]
      exact Finset.sum_erase_add d _ hMd
    have hIH := ih _ herase
    have hpow : 2 ^ m ≤ 2 ^ (d.max' hne) :=
      Nat.pow_le_pow_right (by norm_num) (by omega)
    have hps : (2 : ℕ) ^ (m + 1) = 2 ^ m * 2 := pow_succ 2 m
    omega

/-- A k-subset of `{0..m-1}` has bitmap at most `2 ^ m - 2 ^ (m - k)`. -/
theorem bm_upper {d : Finset ℕ} {m : ℕ} (h : d ⊆ Finset.range m) :
    bm d + 2 ^ (m - d.card) ≤ 2 ^ m := by
  have hsd : bm (Finset.range m \ d) + bm d = bm (Finset.range m) := by
    rw [bm, bm, bm]
    exact Finset.sum_sdiff h
  have hcard : (Finset.range m \ d).card = m - d.card := by
    rw [Finset.card_sdiff h, Finset.card_range]
  have := bm_card_le (m - d.card) _ hcard
  have := bm_range_add_one m
  omega

/-- Distinct finsets have distinct bitmaps. -/
theorem bm_inj {s t : Finset ℕ} (h : bm s = bm t) : s = t :=
  Finset.geomSum_injective (le_refl 2) h

/-- Strictly sorted lists have no duplicates. -/
theorem sortedLt_nodup {a : List ℕ} (h : a.Sorted (· < ·)) : a.Nodup :=
  h.nodup

/-- The list bitmap agrees with the finset bitmap on duplicate-free lists. -/
theorem bmL_eq_bm {a : List ℕ} (h : a.Nodup) : bmL a = bm a.toFinset :=
  (List.sum_toFinset _ h).symm

/-- The list bitmap distributes over concatenation. -/
theorem bmL_append (l1 l2 : List ℕ) : bmL (l1 ++ l2) = bmL l1 + bmL l2 := by
  simp [bmL]

/-- The list bitmap of an interval of indices. -/
theorem bmL_range'_add (r p : ℕ) :
    bmL (List.range' p r) + 2 ^ p = 2 ^ (p + r) := by
  induction r generalizing p with
  | zero => simp [bmL]
  | succ r ih =>
    rw [List.range'_succ]
    have := ih (p + 1)
    have hps : (2 : ℕ) ^ (p + 1) = 2 ^ p * 2 := pow_succ 2 p
    have hco : p + 1 + r = p + (r + 1) := by omega
    rw [hco] at this
    simp only [bmL, List.map_cons, List.sum_cons] at *
    omega

/-- The list bitmap of an initial segment. -/
theorem bmL_range_add_one (m : ℕ) : bmL (List.range m) + 1 = 2 ^ m := by
  rw [List.range_eq_range' m]
  have := bmL_range'_add m 0
  simpa using this

/-- The interval list converts to the interval finset. -/
theorem toFinset_range' (p r : ℕ) :
    (List.range' p r).toFinset = Finset.Ico p (p + r) := by
  ext x
  simp [List.mem_range'_1, Nat.add_comm]

/-- In a strictly sorted list of values below `n`, the head plus the length
is at most `n`. -/
theorem sorted_head_add_length_le {n : ℕ} :
    ∀ (a : List ℕ), a.Sorted (· < ·) → a ≠ [] → (∀ x ∈ a, x < n) →
      a.headD 0 + a.length ≤ n := by
  intro a
  induction a with
  | nil => intro _ h _; exact absurd rfl h
  | cons x rest ih =>
    intro hs _ hb
    cases rest with
    | nil =>
      have := hb x (by simp)
      simp only [List.headD_cons, List.length_cons, List.length_nil]
      omega
    | cons y rest2 =>
      have hxy : x < y := (List.sorted_cons.mp hs).1 y (by simp)
      have := ih (List.sorted_cons.mp hs).2 (by simp)
        (fun z hz => hb z (List.mem_cons_of_mem x hz))
      simp only [List.headD_cons, List.length_cons] at *
      omega

/-- Every nonempty strictly sorted list decomposes as a maximal initial run
of consecutive values followed by a strictly larger tail. -/
theorem exists_decomp :
    ∀ (x : ℕ) (rest : List ℕ), (x :: rest).Sorted (· < ·) →
      ∃ r t, 1 ≤ r ∧ x :: rest = List.range' x r ++ t ∧
        (∀ q, t.head? = some q → x + r < q) := by
  intro x rest
  induction rest generalizing x with
  | nil =>
    intro _
    exact ⟨1, [], le_rfl, by simp [List.range'], by simp⟩
  | cons y rest2 ih =>
    intro hs
    have hxy : x < y := (List.sorted_cons.mp hs).1 y (by simp)
    have hs2 : (y :: rest2).Sorted (· < ·) := (List.sorted_cons.mp hs).2
    by_cases hgap : x + 1 < y
    · refine ⟨1, y :: rest2, le_rfl, by simp [List.range'], ?_⟩
      intro q hq
      simp only [List.head?_cons, Option.some.injEq] at hq
      omega
    · have hy : y = x + 1 := by omega
      obtain ⟨r2, t, hr2, heq, hgap2⟩ := ih y hs2
      refine ⟨r2 + 1, t, by omega, ?_, ?_⟩
      · rw [List.range'_succ, ← hy, heq]
        rfl
      · intro q hq
        have := hgap2 q hq
        omega

/-- `jsaveCalc` finds the end of the initial consecutive run. -/
theorem jsave_decomp :
    ∀ (r p : ℕ) (t : List ℕ), (∀ q, t.head? = some q → p + (r + 1) < q) →
      jsaveCalc (List.range' p (r + 1) ++ t) = r := by
  intro r
  induction r with
  | zero =>
    intro p t hgap
    cases t with
    | nil => rfl
    | cons q t2 =>
      have := hgap q rfl
      show jsaveCalc (p :: q :: t2) = 0
      unfold jsaveCalc
      rw [if_pos (by omega)]
  | succ r ih =>
    intro p t hgap
    rw [List.range'_succ]
    have hr : List.range' (p + 1) (r + 1) ++ t =
        (p + 1) :: (List.range' (p + 2) r ++ t) := by
      rw [List.range'_succ]
      rfl
    show jsaveCalc (p :: (List.range' (p + 1) (r + 1) ++ t)) = r + 1
    rw [hr]
    unfold jsaveCalc
    rw [if_neg (by omega)]
    rw [← hr, ih (p + 1) t (fun q hq => by have := hgap q hq; omega)]

/-- The element of the decomposed list at the run end. -/
theorem getD_decomp (p r : ℕ) (t : List ℕ) (h : 1 ≤ r) :
    (List.range' p r ++ t).getD (r - 1) 0 = p + (r - 1) := by
  have hlen : r - 1 < (List.range' p r).length := by
    rw [List.length_range']; omega
  have hlen2 : r - 1 < (List.range' p r ++ t).length := by
    rw [List.length_append, List.length_range']; omega
  rw [List.getD_eq_getElem _ _ hlen2, List.getElem_append_left hlen,
    List.getElem_range'_1 _ hlen]

/-- The head of the decomposed list. -/
theorem headD_decomp (p r : ℕ) (t : List ℕ) (h : 1 ≤ r) :
    (List.range' p r ++ t).headD 0 = p := by
  cases r with
  | zero => omega
  | succ r => rw [List.range'_succ]; rfl

/-- Dropping the run leaves the tail. -/
theorem drop_decomp (p r : ℕ) (t : List ℕ) :
    (List.range' p r ++ t).drop r = t := by
  have := List.drop_left (List.range' p r) t
  rwa [List.length_range'] at this

/-- `ksub_next` on a decomposed valid subset: the run collapses to
`0..r-2` and its end moves up by one. -/
theorem ksub_next_decomp (n k p r : ℕ) (t : List ℕ) (hr : 1 ≤ r)
    (hgap : ∀ q, t.head? = some q → p + r < q) (hguard : p < n - k + 1) :
    ksub_next n k (List.range' p r ++ t) =
      List.range (r - 1) ++ (p + r) :: t := by
  unfold ksub_next
  rw [headD_decomp p r t hr, if_pos hguard]
  obtain ⟨r', rfl⟩ : ∃ r', r = r' + 1 := ⟨r - 1, by omega⟩
  rw [jsave_decomp r' p t (by simpa using hgap)]
  have hg : (List.range' p (r' + 1) ++ t).getD r' 0 = p + r' := by
    have := getD_decomp p (r' + 1) t hr
    simpa using this
  rw [hg, drop_decomp]
  simp only [Nat.add_sub_cancel]
  have : p + r' + 1 = p + (r' + 1) := by omega
  rw [this]

/-- Minimality of the `ksub_next` successor: no k-subset has a bitmap
strictly between a subset `Ico p (p+r) ∪ T` (run plus tail) and its
successor `range (r-1) ∪ insert (p+r) T`. -/
theorem bm_next_min (k p r : ℕ) (T : Finset ℕ) (hr : 1 ≤ r)
    (hT : ∀ x ∈ T, p + r < x) (hcard : r + T.card = k)
    (d : Finset ℕ) (hdc : d.card = k)
    (hgt : bm (Finset.Ico p (p + r) ∪ T) < bm d) :
    bm (Finset.range (r - 1) ∪ insert (p + r) T) ≤ bm d := by
  have hdisj1 : Disjoint (Finset.Ico p (p + r)) T := by
    rw [Finset.disjoint_left]
    intro x hx hxT
    have := (Finset.mem_Ico.mp hx).2
    have := hT x hxT
    omega
  have hU : bm (Finset.Ico p (p + r) ∪ T) = bm (Finset.Ico p (p + r)) + bm T :=
    Finset.sum_union hdisj1
  have hIco : bm (Finset.Ico p (p + r)) + 2 ^ p = 2 ^ (p + r) :=
    bm_Ico_add p (p + r) (by omega)
  have hsT : p + r ∉ T := fun h => absurd (hT _ h) (by omega)
  have hdisj2 : Disjoint (Finset.range (r - 1)) (insert (p + r) T) := by
    rw [Finset.disjoint_left]
    intro x hx hxT
    have hx1 := Finset.mem_range.mp hx
    rcases Finset.mem_insert.mp hxT with h | h
    · omega
    · have := hT x h; omega
  have hV : bm (Finset.range (r - 1) ∪ insert (p + r) T) =
      bm (Finset.range (r - 1)) + (2 ^ (p + r) + bm T) := by
    rw [bm, Finset.sum_union hdisj2, Finset.sum_insert hsT]
    rfl
  have hRange : bm (Finset.range (r - 1)) + 1 = 2 ^ (r - 1) :=
    bm_range_add_one (r - 1)
  have hsplit : bm (d.filter (fun x => p + r < x)) +
      bm (d.filter (fun x => ¬ p + r < x)) = bm d :=
    Finset.sum_filter_add_sum_filter_not d _ _
  have hcards : (d.filter (fun x => p + r < x)).card +
      (d.filter (fun x => ¬ p + r < x)).card = d.card :=
    Finset.filter_card_add_filter_neg_card_eq_card _
  have hHi_ge : ∀ x ∈ d.filter (fun x => p + r < x), p + r + 1 ≤ x := by
    intro x hx
    have := (Finset.mem_filter.mp hx).2
    omega
  have hT_ge : ∀ x ∈ T, p + r + 1 ≤ x := fun x hx => by
    have := hT x hx; omega
  rcases lt_trichotomy (bm (d.filter (fun x => p + r < x))) (bm T) with
    hlt | heq | hgt2
  · exfalso
    have h1 := bm_add_pow_le hHi_ge hT_ge hlt
    have h2 : bm (d.filter (fun x => ¬ p + r < x)) < 2 ^ (p + r + 1) := by
      apply bm_lt_pow
      intro x hx
      have := (Finset.mem_filter.mp hx).2
      exact Finset.mem_range.mpr (by omega)
    omega
  · have hTd : d.filter (fun x => p + r < x) = T := bm_inj heq
    have hTcard : T.card = k - r := by omega
    have hdLo_card : (d.filter (fun x => ¬ p + r < x)).card = r := by
      have : (d.filter (fun x => p + r < x)).card = T.card := by rw [hTd]
      omega
    by_cases hsd : p + r ∈ d
    · have hs_dLo : p + r ∈ d.filter (fun x => ¬ p + r < x) :=
        Finset.mem_filter.mpr ⟨hsd, by omega⟩
      have h3 : bm ((d.filter (fun x => ¬ p + r < x)).erase (p + r)) +
          2 ^ (p + r) = bm (d.filter (fun x => ¬ p + r < x)) :=
        Finset.sum_erase_add _ _ hs_dLo
      have h4 : ((d.filter (fun x => ¬ p + r < x)).erase (p + r)).card =
          r - 1 := by
        rw [Finset.card_erase_of_mem hs_dLo, hdLo_card]
      have h5 := bm_card_le (r - 1) _ h4
      omega
    · exfalso
      have hdLo_sub : d.filter (fun x => ¬ p + r < x) ⊆
          Finset.range (p + r) := by
        intro x hx
        have h1 := (Finset.mem_filter.mp hx).2
        have h2 := (Finset.mem_filter.mp hx).1
        have hne : x ≠ p + r := fun h => hsd (h ▸ h2)
        exact Finset.mem_range.mpr (by omega)
      have h6 := bm_upper hdLo_sub
      rw [hdLo_card] at h6
      have hpr : p + r - r = p := by omega
      rw [hpr] at h6
      omega
  · have h7 := bm_add_pow_le hT_ge hHi_ge hgt2
    have h8 : (2 : ℕ) ^ (r - 1) ≤ 2 ^ (p + r) :=
      Nat.pow_le_pow_right (by norm_num) (by omega)
    have h9 : (2 : ℕ) ^ (p + r + 1) = 2 ^ (p + r) * 2 := pow_succ 2 (p + r)
    omega

/-- The initial-segment list converts to the initial-segment finset. -/
theorem toFinset_rangeL (n : ℕ) : (List.range n).toFinset = Finset.range n := by
  ext x
  simp

/-- One `ksub_next` step on a valid non-maximal k-subset: the result is
valid, its bitmap is strictly larger, and no k-subset bitmap lies in
between. -/
theorem next_step (n k : ℕ) (a : List ℕ) (hv : ValidComb n k a)
    (hk1 : 1 ≤ k) (hkn : k ≤ n) (hmax : a ≠ List.range' (n - k) k) :
    ValidComb n k (ksub_next n k a) ∧
      bmL a < bmL (ksub_next n k a) ∧
      ∀ d : Finset ℕ, d.card = k → bmL a < bm d →
        bmL (ksub_next n k a) ≤ bm d := by
  obtain ⟨hs, hlen, hb⟩ := hv
  cases a with
  | nil => simp at hlen; omega
  | cons x rest =>
  obtain ⟨r, t, hr, heq, hgap⟩ := exists_decomp x rest hs
  have hlen2 : r + t.length = k := by
    have h1 := congrArg List.length heq
    simp [List.length_range'] at h1
    simp only [List.length_cons] at hlen
    omega
  have hhead : x + k ≤ n := by
    have := sorted_head_add_length_le (x :: rest) hs (by simp) hb
    simpa [hlen] using this
  have hguard : x < n - k + 1 := by omega
  have hnext : ksub_next n k (x :: rest) =
      List.range (r - 1) ++ (x + r) :: t := by
    rw [heq]
    exact ksub_next_decomp n k x r t hr hgap hguard
  have hst : t.Sorted (· < ·) := by
    have : (List.range' x r ++ t).Sorted (· < ·) := heq ▸ hs
    exact (List.pairwise_append.mp this).2.1
  have ht_gt : ∀ y ∈ t, x + r < y := by
    cases t with
    | nil => simp
    | cons q t2 =>
      intro y hy
      have hq := hgap q rfl
      rcases List.mem_cons.mp hy with rfl | hy2
      · exact hq
      · have := (List.sorted_cons.mp hst).1 y hy2
        omega
  have ht_lt_n : ∀ y ∈ t, y < n := by
    intro y hy
    exact hb y (by rw [heq]; exact List.mem_append_right _ hy)
  have hxr_n : x + r < n := by
    cases t with
    | nil =>
      have hrk : r = k := by simpa using hlen2
      have hxne : x ≠ n - k := by
        intro hx
        apply hmax
        rw [heq, hrk, hx]
        simp
      omega
    | cons q t2 =>
      have := hgap q rfl
      have := ht_lt_n q (by simp)
      omega
  have hnodup_t : t.Nodup := sortedLt_nodup hst
  have hnext_sorted : (List.range (r - 1) ++ (x + r) :: t).Sorted (· < ·) := by
    apply List.pairwise_append.mpr
    refine ⟨List.sorted_lt_range _, ?_, ?_⟩
    · exact List.sorted_cons.mpr ⟨ht_gt, hst⟩
    · intro z hz y hy
      have hz1 := List.mem_range.mp hz
      rcases List.mem_cons.mp hy with rfl | hy2
      · omega
      · have := ht_gt y hy2
        omega
  have hnext_valid : ValidComb n k (List.range (r - 1) ++ (x + r) :: t) := by
    refine ⟨hnext_sorted, ?_, ?_⟩
    · simp only [List.length_append, List.length_range, List.length_cons]
      omega
    · intro z hz
      rcases List.mem_append.mp hz with hz1 | hz1
      · have := List.mem_range.mp hz1
        omega
      · rcases List.mem_cons.mp hz1 with rfl | hz2
        · exact hxr_n
        · exact ht_lt_n z hz2
  have hbmL_a : bmL (x :: rest) = bmL (List.range' x r) + bmL t := by
    rw [heq, bmL_append]
  have hbmL_next : bmL (List.range (r - 1) ++ (x + r) :: t) =
      bmL (List.range (r - 1)) + (2 ^ (x + r) + bmL t) := by
    rw [bmL_append]
    simp [bmL]
  have hrx := bmL_range'_add r x
  have hrr := bmL_range_add_one (r - 1)
  have hinc : bmL (x :: rest) < bmL (List.range (r - 1) ++ (x + r) :: t) := by
    have h1 : (1 : ℕ) ≤ 2 ^ x := Nat.one_le_two_pow
    omega
  refine ⟨hnext ▸ hnext_valid, hnext ▸ hinc, ?_⟩
  intro d hdc hda
  rw [hnext]
  have htoF_a : (x :: rest).toFinset =
      Finset.Ico x (x + r) ∪ t.toFinset := by
    rw [heq, List.toFinset_append, toFinset_range']
  have hnodup_a : (x :: rest).Nodup := sortedLt_nodup hs
  have hbm_a : bmL (x :: rest) = bm (Finset.Ico x (x + r) ∪ t.toFinset) := by
    rw [bmL_eq_bm hnodup_a, htoF_a]
  have hnodup_next : (List.range (r - 1) ++ (x + r) :: t).Nodup :=
    sortedLt_nodup hnext_sorted
  have hbm_next : bmL (List.range (r - 1) ++ (x + r) :: t) =
      bm (Finset.range (r - 1) ∪ insert (x + r) t.toFinset) := by
    rw [bmL_eq_bm hnodup_next, List.toFinset_append, List.toFinset_cons,
      toFinset_rangeL]
  rw [hbm_next]
  refine bm_next_min k x r t.toFinset hr ?_ ?_ d hdc ?_
  · intro y hy
    exact ht_gt y (List.mem_toFinset.mp hy)
  · rw [List.toFinset_card_of_nodup hnodup_t]
    exact hlen2
  · rw [← hbm_a]
    exact hda

/-- A valid k-subset list denotes a member of `combSet n k`. -/
theorem valid_mem_combSet {n k : ℕ} {a : List ℕ} (hv : ValidComb n k a) :
    a.toFinset ∈ combSet n k := by
  obtain ⟨hs, hlen, hb⟩ := hv
  refine Finset.mem_powersetCard.mpr ⟨?_, ?_⟩
  · intro x hx
    exact Finset.mem_range.mpr (hb x (List.mem_toFinset.mp hx))
  · rw [List.toFinset_card_of_nodup (sortedLt_nodup hs), hlen]

/-- The bitmap of a valid list is the bitmap of its finset. -/
theorem valid_bmL_eq {n k : ℕ} {a : List ℕ} (hv : ValidComb n k a) :
    bmL a = bm a.toFinset :=
  bmL_eq_bm (sortedLt_nodup hv.1)

/-- The first subset `0..k-1` has rank 0. -/
theorem rank_first (n k : ℕ) : rankOf n k (bmL (List.range k)) = 0 := by
  have hempty : (combSet n k).filter (fun t => bm t < bmL (List.range k)) = ∅ := by
    rw [Finset.filter_eq_empty_iff]
    intro t ht
    have htc : t.card = k := (Finset.mem_powersetCard.mp ht).2
    have h1 := bm_card_le k t htc
    have h2 := bmL_range_add_one k
    omega
  rw [rankOf, hempty, Finset.card_empty]

/-- Ranks of members are below the total count. -/
theorem rank_lt_card {n k : ℕ} {A : Finset ℕ} (hA : A ∈ combSet n k) :
    rankOf n k (bm A) < (combSet n k).card := by
  have hsub : (combSet n k).filter (fun t => bm t < bm A) ⊆
      (combSet n k).erase A := by
    intro t ht
    have h1 := Finset.mem_filter.mp ht
    refine Finset.mem_erase.mpr ⟨?_, h1.1⟩
    intro he
    rw [he] at h1
    exact lt_irrefl _ h1.2
  have h2 : ((combSet n k).erase A).card = (combSet n k).card - 1 :=
    Finset.card_erase_of_mem hA
  have h3 : 0 < (combSet n k).card := Finset.card_pos.mpr ⟨A, hA⟩
  have h4 := Finset.card_le_card hsub
  rw [rankOf]
  omega

/-- The last subset `n-k..n-1` is a member. -/
theorem max_mem_combSet (n k : ℕ) (hkn : k ≤ n) :
    Finset.Ico (n - k) n ∈ combSet n k := by
  refine Finset.mem_powersetCard.mpr ⟨?_, ?_⟩
  · intro x hx
    exact Finset.mem_range.mpr (Finset.mem_Ico.mp hx).2
  · rw [Nat.card_Ico]
    omega

/-- The last subset has the maximal rank. -/
theorem rank_max (n k : ℕ) (hkn : k ≤ n) :
    rankOf n k (bm (Finset.Ico (n - k) n)) = (combSet n k).card - 1 := by
  have hIco := bm_Ico_add (n - k) n (by omega)
  have hfe : (combSet n k).filter (fun t => bm t < bm (Finset.Ico (n - k) n)) =
      (combSet n k).erase (Finset.Ico (n - k) n) := by
    ext t
    rw [Finset.mem_filter, Finset.mem_erase]
    constructor
    · rintro ⟨h1, h2⟩
      refine ⟨?_, h1⟩
      intro he
      rw [he] at h2
      exact lt_irrefl _ h2
    · rintro ⟨hne, h1⟩
      refine ⟨h1, ?_⟩
      obtain ⟨hsub, hcard⟩ := Finset.mem_powersetCard.mp h1
      have h2 := bm_upper hsub
      rw [hcard] at h2
      have h3 : bm t ≠ bm (Finset.Ico (n - k) n) := fun he => hne (bm_inj he)
      omega
  rw [rankOf, hfe, Finset.card_erase_of_mem (max_mem_combSet n k hkn)]

/-- The maximal list subset has the bitmap of the interval finset. -/
theorem max_list_bm (n k : ℕ) (hkn : k ≤ n) :
    bmL (List.range' (n - k) k) = bm (Finset.Ico (n - k) n) := by
  rw [bmL_eq_bm (List.nodup_range' ..), toFinset_range', Nat.sub_add_cancel hkn]

/-- One `ksub_next` step increments the rank by exactly one. -/
theorem rank_step (n k : ℕ) (a : List ℕ) (hv : ValidComb n k a)
    (hk1 : 1 ≤ k) (hkn : k ≤ n) (hmax : a ≠ List.range' (n - k) k) :
    rankOf n k (bmL (ksub_next n k a)) = rankOf n k (bmL a) + 1 := by
  obtain ⟨hvn, hinc, hmin⟩ := next_step n k a hv hk1 hkn hmax
  have hAmem := valid_mem_combSet hv
  have hbmA := valid_bmL_eq hv
  have hfe : (combSet n k).filter (fun t => bm t < bmL (ksub_next n k a)) =
      insert a.toFinset
        ((combSet n k).filter (fun t => bm t < bmL a)) := by
    ext t
    rw [Finset.mem_filter, Finset.mem_insert, Finset.mem_filter]
    constructor
    · rintro ⟨h1, h2⟩
      rcases lt_trichotomy (bm t) (bmL a) with h3 | h3 | h3
      · exact Or.inr ⟨h1, h3⟩
      · left
        apply bm_inj
        rw [← hbmA, h3]
      · exfalso
        have hcard : t.card = k := (Finset.mem_powersetCard.mp h1).2
        have := hmin t hcard h3
        omega
    · rintro (rfl | ⟨h1, h2⟩)
      · exact ⟨hAmem, by rw [← hbmA]; exact hinc⟩
      · exact ⟨h1, lt_trans h2 hinc⟩
  have hnotmem : a.toFinset ∉ (combSet n k).filter (fun t => bm t < bmL a) := by
    intro h
    have := (Finset.mem_filter.mp h).2
    rw [← hbmA] at this
    exact lt_irrefl _ this
  rw [rankOf, hfe, Finset.card_insert_of_not_mem hnotmem, rankOf]

/-- Unfolding of the visited-subset sequence. -/
theorem seqSub_succ (n k i : ℕ) :
    seqSub n k (i + 1) = ksub_next n k (seqSub n k i) := rfl

/-- A list of rank away from the maximum is not the maximal subset. -/
theorem rank_ne_max (n k : ℕ) (hkn : k ≤ n) (a : List ℕ)
    (hrank : rankOf n k (bmL a) + 1 < n.choose k) :
    a ≠ List.range' (n - k) k := by
  intro he
  have hbm : bmL a = bm (Finset.Ico (n - k) n) := by
    rw [he]
    exact max_list_bm n k hkn
  have h1 : rankOf n k (bmL a) = (combSet n k).card - 1 := by
    rw [hbm]
    exact rank_max n k hkn
  have hScard : (combSet n k).card = n.choose k := by
    rw [combSet, Finset.card_powersetCard, Finset.card_range]
  omega

/-- The i-th subset visited by `Subset_CCP` is a valid k-subset and exactly
i subsets have a smaller bitmap. -/
theorem seq_invariant (n k : ℕ) (hk1 : 1 ≤ k) (hkn : k < n) :
    ∀ i, i < n.choose k →
      ValidComb n k (seqSub n k i) ∧ rankOf n k (bmL (seqSub n k i)) = i := by
  intro i
  induction i with
  | zero =>
    intro _
    constructor
    · exact ⟨List.sorted_lt_range k, List.length_range k,
        fun x hx => lt_trans (List.mem_range.mp hx) hkn⟩
    · exact rank_first n k
  | succ i ih =>
    intro hi1
    obtain ⟨hv, hrank⟩ := ih (by omega)
    have hmax : seqSub n k i ≠ List.range' (n - k) k :=
      rank_ne_max n k (le_of_lt hkn) _ (by omega)
    constructor
    · rw [seqSub_succ]
      exact (next_step n k _ hv hk1 (le_of_lt hkn) hmax).1
    · rw [seqSub_succ, rank_step n k _ hv hk1 (le_of_lt hkn) hmax, hrank]

/-- The bitmaps of the visited subsets increase strictly along the visit
order. -/
theorem seq_mono (n k : ℕ) (hk1 : 1 ≤ k) (hkn : k < n) :
    ∀ j i, i < j → j < n.choose k →
      bmL (seqSub n k i) < bmL (seqSub n k j) := by
  intro j
  induction j with
  | zero => intro i h _; omega
  | succ j ih =>
    intro i hij hj
    obtain ⟨hv, hrank⟩ := seq_invariant n k hk1 hkn j (by omega)
    have hmax : seqSub n k j ≠ List.range' (n - k) k :=
      rank_ne_max n k (le_of_lt hkn) _ (by omega)
    have hstep := (next_step n k _ hv hk1 (le_of_lt hkn) hmax).2.1
    rw [← seqSub_succ] at hstep
    rcases Nat.eq_or_lt_of_le (Nat.le_of_lt_succ hij) with rfl | hlt
    · exact hstep
    · exact lt_trans (ih i hlt (by omega)) hstep

set_option maxRecDepth 40000 in
/-- C7 counterexample.  At `n = 30`, `k = 15` — within the program's limits
(MAXSIZE = 350 nodes) — the intermediate product `C(30,14) * 16 =
2326762800` of the `nChoosek` loop overflows the 32-bit `int`, so
`nChoosek` returns the wrapped value `-131213633` instead of
`C(30,15) = 155117520`.  `Subset_CCP`'s loop bound is then negative and
only the first 15-subset `0..14` is visited, so the 15-subset
`{1, ..., 15}` of the 30 leaves is never enumerated: the SRFD driver does
not enumerate every k-subset exactly once at this input. -/
theorem ksubEnumeration_overflow :
    nChoosek 30 15 = -131213633 ∧
      subsetsOfSize 30 15 = [List.range 15] ∧
      (List.range' 1 15).toFinset ∈ Finset.powersetCard 15 (Finset.range 30) ∧
      (List.range' 1 15).toFinset ∉ (subsetsOfSize 30 15).map List.toFinset :=
  ⟨by decide, by decide,
   Finset.mem_powersetCard.mpr ⟨by decide, by decide⟩,
   by decide⟩

/-- C7 amended.  For each subset size k in `[1, n-1]` on which the 32-bit
`nChoosek` computation does not overflow — that is, when the loop bound it
returns is the true binomial coefficient — the SRFD driver enumerates every
k-subset of the n canonically sorted leaves exactly once: the i-th visited
subset (the identity vector followed by applications of `ksub_next`) hits
each k-element subset of `{0..n-1}` for exactly one index `i` below the
bound, the visit order strictly increases the membership-bitmap integer,
and the visited list has exactly `C(n,k)` entries. -/
theorem ksubEnumeration (n k : ℕ) (hk1 : 1 ≤ k) (hkn : k < n)
    (hnof : nChoosek n k = (n.choose k : ℤ)) :
    (∀ s ∈ Finset.powersetCard k (Finset.range n),
      ∃! i, i < (nChoosek n k).toNat ∧ (seqSub n k i).toFinset = s) ∧
      (∀ i j, i < j → j < (nChoosek n k).toNat →
        bmL (seqSub n k i) < bmL (seqSub n k j)) ∧
      (subsetsOfSize n k).length = n.choose k := by
  have hb : (nChoosek n k).toNat = n.choose k := by
    rw [hnof]
    exact Int.toNat_natCast _
  have hScard : (combSet n k).card = n.choose k := by
    rw [combSet, Finset.card_powersetCard, Finset.card_range]
  refine ⟨?_, fun i j h1 h2 => seq_mono n k hk1 hkn j i h1 (hb ▸ h2), ?_⟩
  case refine_2 =>
    rw [subsetsOfSize, List.length_map, List.length_range, hb]
    exact max_eq_left (Nat.choose_pos (le_of_lt hkn))
  intro s hs
  rw [hb]
  have hmemF : ∀ i : Fin (n.choose k),
      (seqSub n k i).toFinset ∈ combSet n k := fun i =>
    valid_mem_combSet (seq_invariant n k hk1 hkn i i.2).1
  have hinj : ∀ i j : Fin (n.choose k),
      (seqSub n k i).toFinset = (seqSub n k j).toFinset → i = j := by
    intro i j hij
    have h1 := (seq_invariant n k hk1 hkn i i.2).2
    have h2 := (seq_invariant n k hk1 hkn j j.2).2
    have hbm : bmL (seqSub n k i) = bmL (seqSub n k j) := by
      rw [valid_bmL_eq (seq_invariant n k hk1 hkn i i.2).1,
        valid_bmL_eq (seq_invariant n k hk1 hkn j j.2).1, hij]
    apply Fin.ext
    rw [← h1, ← h2, hbm]
  have hbij : Function.Bijective
      (fun i : Fin (n.choose k) =>
        (⟨(seqSub n k i).toFinset, hmemF i⟩ : {x // x ∈ combSet n k})) := by
    rw [Fintype.bijective_iff_injective_and_card]
    constructor
    · intro i j hij
      exact hinj i j (congrArg Subtype.val hij)
    · rw [Fintype.card_fin, Fintype.card_coe, hScard]
  obtain ⟨i, hi⟩ := hbij.2 ⟨s, hs⟩
  refine ⟨i.1, ⟨i.2, congrArg Subtype.val hi⟩, ?_⟩
  rintro j ⟨hj1, hj2⟩
  have hje : (⟨(seqSub n k (⟨j, hj1⟩ : Fin (n.choose k))).toFinset,
      hmemF _⟩ : {x // x ∈ combSet n k}) =
      ⟨(seqSub n k i).toFinset, hmemF i⟩ := by
    apply Subtype.ext
    show (seqSub n k j).toFinset = (seqSub n k i).toFinset
    rw [hj2]
    exact (congrArg Subtype.val hi).symm
  have := hinj ⟨j, hj1⟩ i (congrArg Subtype.val hje)
  exact congrArg Fin.val this

/-- Witness for `ksubEnumeration` at `n = 4`, `k = 2`, where the `int`
computation does not overflow. -/
theorem ksubEnumeration_witness :
    (∀ s ∈ Finset.powersetCard 2 (Finset.range 4),
      ∃! i, i < (nChoosek 4 2).toNat ∧ (seqSub 4 2 i).toFinset = s) ∧
      (∀ i j, i < j → j < (nChoosek 4 2).toNat →
        bmL (seqSub 4 2 i) < bmL (seqSub 4 2 j)) ∧
      (subsetsOfSize 4 2).length = Nat.choose 4 2 :=
  ksubEnumeration 4 2 (by decide) (by decide) (by decide)

/-- Witness for `srfdSymmetric` on two concrete two-leaf networks. -/
theorem srfdSymmetric_witness :
    Find_Cluster_Distance ⟨2, ["a", "b"], fun s => s.length = 1⟩
        ⟨2, ["a", "b"], fun _ => false⟩ =
      Find_Cluster_Distance ⟨2, ["a", "b"], fun _ => false⟩
        ⟨2, ["a", "b"], fun s => s.length = 1⟩ :=
  srfdSymmetric ⟨2, ["a", "b"], fun s => s.length = 1⟩
    ⟨2, ["a", "b"], fun _ => false⟩ rfl rfl

end PhyloNet
